import Mathlib

/-!
Verification of the register-encoding logic and control-loop state machine of
`lenovo_fix.py` (the `throttled` daemon).  Python floats are modelled as exact
rationals, Python arbitrary-precision integers as `ℤ`/`ℕ`, exceptions as
`Option`, and the hardware-write side effects of a control-loop tick as an
explicit list of write events.
-/

namespace LenovoFix

/-- Python 3 `round` on an exact rational: round to nearest, ties to even.
Used to model `int(round(x))` (and `round(x)`) in the source. -/
def pyRound (q : ℚ) : ℤ :=
  if Int.fract q = 1 / 2 then (if ⌊q⌋ % 2 = 0 then ⌊q⌋ else ⌊q⌋ + 1) else round q

/-- Hardware time unit `1.0 / 2**readmsr(0x606, 16, 19)` (line 102), as a
function of the 4-bit capability-register field `k`. -/
def time_unit (k : ℕ) : ℚ := 1 / 2 ^ k

/-- Duration represented by a candidate pair: `(2**Y) * (1. + Z / 4.) * time_unit`
(line 105). -/
def tw_value (Y Z : ℕ) (u : ℚ) : ℚ := 2 ^ Y * (1 + (Z : ℚ) / 4) * u

/-- The candidate pairs in the order the nested loops
`for Y in range(2**5): for Z in range(2**2):` (lines 103-104) visit them. -/
def tw_pairs : List (ℕ × ℕ) :=
  (List.range 32).flatMap fun Y => (List.range 4).map fun Z => (Y, Z)

/-- First pair of the list satisfying the bound `t <= tw_value Y Z u`, i.e. the
early `return (Y, Z)` of line 106; `none` models the `raise ValueError` of
line 107. -/
def tw_find (t u : ℚ) : List (ℕ × ℕ) → Option (ℕ × ℕ)
  | [] => none
  | p :: ps => if t ≤ tw_value p.1 p.2 u then some p else tw_find t u ps

/-- Model of `calc_time_window_vars` (lines 100-107), parametrised by the
4-bit time-unit exponent `k` that the source reads from MSR `0x606`. -/
def calc_time_window_vars (t : ℚ) (k : ℕ) : Option (ℕ × ℕ) :=
  tw_find t (time_unit k) tw_pairs

/-- Integer measure of the represented duration: `tw_value Y Z u` equals
`tw_cval (Y, Z) * u / 4`. -/
def tw_cval (p : ℕ × ℕ) : ℕ := 2 ^ p.1 * (4 + p.2)

theorem tw_find_spec {t u : ℚ} {l : List (ℕ × ℕ)} {p : ℕ × ℕ}
    (h : tw_find t u l = some p) : p ∈ l ∧ t ≤ tw_value p.1 p.2 u := by
  induction l with
  | nil => simp [tw_find] at h
  | cons q l ih =>
    by_cases hq : t ≤ tw_value q.1 q.2 u
    · simp [tw_find, hq] at h
      subst h
      exact ⟨List.mem_cons_self _ _, hq⟩
    · simp [tw_find, hq] at h
      obtain ⟨hmem, hle⟩ := ih h
      exact ⟨List.mem_cons_of_mem _ hmem, hle⟩

theorem tw_find_split {t u : ℚ} {l : List (ℕ × ℕ)} {p : ℕ × ℕ}
    (h : tw_find t u l = some p) :
    ∃ l₁ l₂, l = l₁ ++ p :: l₂ ∧ ∀ q ∈ l₁, ¬ t ≤ tw_value q.1 q.2 u := by
  induction l with
  | nil => simp [tw_find] at h
  | cons q l ih =>
    by_cases hq : t ≤ tw_value q.1 q.2 u
    · simp [tw_find, hq] at h
      subst h
      exact ⟨[], l, rfl, by simp⟩
    · simp [tw_find, hq] at h
      obtain ⟨l₁, l₂, hsplit, hfail⟩ := ih h
      refine ⟨q :: l₁, l₂, by simp [hsplit], ?_⟩
      intro r hr
      rcases List.mem_cons.mp hr with hr | hr
      · subst hr; exact hq
      · exact hfail r hr

theorem tw_find_none {t u : ℚ} {l : List (ℕ × ℕ)}
    (h : ∀ q ∈ l, ¬ t ≤ tw_value q.1 q.2 u) : tw_find t u l = none := by
  induction l with
  | nil => rfl
  | cons q l ih =>
    have hq : ¬ t ≤ tw_value q.1 q.2 u := h q (List.mem_cons_self _ _)
    simp only [tw_find, if_neg hq]
    exact ih fun r hr => h r (List.mem_cons_of_mem _ hr)

theorem mem_tw_pairs {Y Z : ℕ} : (Y, Z) ∈ tw_pairs ↔ Y < 32 ∧ Z < 4 := by
  simp only [tw_pairs, List.mem_flatMap, List.mem_map, List.mem_range, Prod.mk.injEq]
  constructor
  · rintro ⟨Y', hY', Z', hZ', rfl, rfl⟩
    exact ⟨hY', hZ'⟩
  · rintro ⟨hY, hZ⟩
    exact ⟨Y, hY, Z, hZ, rfl, rfl⟩

set_option maxRecDepth 4000 in
theorem tw_pairs_sorted :
    tw_pairs.Pairwise fun p q => tw_cval p < tw_cval q := by decide

theorem tw_value_eq_cval (Y Z : ℕ) (u : ℚ) :
    tw_value Y Z u = (tw_cval (Y, Z) : ℚ) * u / 4 := by
  simp only [tw_value, tw_cval]
  push_cast
  ring

/-! ### Bitwise toolkit

Python ints are arbitrary-precision two's-complement integers; `|`, `&`, `<<`
translate to `Nat.lor`/`Int.lor`, `Nat.land`/`Int.land`, `Nat.shiftLeft` and
the Mathlib `ℤ` shift.  The lemmas below turn the or-chains of the source into
plain sums, under the bit-disjointness bounds that hold at each use site. -/

theorem lor_mul_pow_eq_add {s : ℕ} (a k : ℕ) (h : s < 2 ^ k) :
    a * 2 ^ k ||| s = a * 2 ^ k + s := by
  calc a * 2 ^ k ||| s = 2 ^ k * a ||| s := by rw [Nat.mul_comm]
    _ = 2 ^ k * a + s := (Nat.mul_add_lt_is_or h a).symm
    _ = a * 2 ^ k + s := by rw [Nat.mul_comm]

theorem lor_low_high {s : ℕ} (a k : ℕ) (h : s < 2 ^ k) :
    s ||| a * 2 ^ k = a * 2 ^ k + s := by
  rw [Nat.or_comm]
  exact lor_mul_pow_eq_add a k h

theorem shiftLeft_lor_distrib (a b k : ℕ) :
    (a ||| b) <<< k = a <<< k ||| b <<< k := by
  apply Nat.eq_of_testBit_eq
  intro i
  simp only [Nat.testBit_shiftLeft, Nat.testBit_or]
  cases decide (k ≤ i) <;> simp

theorem shiftLeft_land_distrib (a b k : ℕ) :
    (a &&& b) <<< k = a <<< k &&& b <<< k := by
  apply Nat.eq_of_testBit_eq
  intro i
  simp only [Nat.testBit_shiftLeft, Nat.testBit_and]
  cases decide (k ≤ i) <;> simp

theorem mul_pow_lor_mul_pow (a c k : ℕ) :
    a * 2 ^ k ||| c * 2 ^ k = (a ||| c) * 2 ^ k := by
  have h := shiftLeft_lor_distrib a c k
  simpa only [Nat.shiftLeft_eq] using h.symm

theorem lor_add_high {b : ℕ} (a c k : ℕ) (hb : b < 2 ^ k) :
    (a * 2 ^ k + b) ||| c * 2 ^ k = (a ||| c) * 2 ^ k + b := by
  rw [← lor_mul_pow_eq_add a k hb, Nat.or_assoc, Nat.or_comm b, ← Nat.or_assoc,
    mul_pow_lor_mul_pow, lor_mul_pow_eq_add _ k hb]

/-- Conversion of the `ℤ` shift of Mathlib (which models Python `<<` on a
possibly negative int) into multiplication. -/
theorem int_shiftLeft_eq_mul (x : ℤ) (n : ℕ) : x <<< (n : ℤ) = x * 2 ^ n := by
  cases x with
  | ofNat m =>
    have h := Int.shiftLeft_coe_nat m n
    rw [Int.ofNat_eq_natCast, h, Nat.shiftLeft_eq]
    push_cast
    ring
  | negSucc m =>
    rw [Int.shiftLeft_negSucc]
    have h := Nat.shiftLeft'_tt_eq_mul_pow m n
    have h1 : (1 : ℕ) ≤ (m + 1) * 2 ^ n := Nat.one_le_iff_ne_zero.mpr (by positivity)
    rw [Int.negSucc_eq, Int.negSucc_eq]
    have h2 : (Nat.shiftLeft' true m n : ℤ) = (m + 1) * 2 ^ n - 1 := by
      have := congrArg (fun z : ℕ => (z : ℤ)) h
      push_cast at this
      linarith
    rw [h2]
    ring

theorem int_lor_natCast (a b : ℕ) : Int.lor (a : ℤ) (b : ℤ) = ((a ||| b : ℕ) : ℤ) := rfl

theorem int_land_natCast (a b : ℕ) : Int.land (a : ℤ) (b : ℤ) = ((a &&& b : ℕ) : ℤ) := rfl

/-- Mathlib `Nat.ldiff` of a low mask: complement of the argument inside the
mask's bits. -/
theorem ldiff_two_pow_sub_one (n m : ℕ) :
    Nat.ldiff (2 ^ n - 1) m = 2 ^ n - 1 - m % 2 ^ n := by
  have hm : m % 2 ^ n < 2 ^ n := Nat.mod_lt _ (Nat.pos_pow_of_pos n (by norm_num))
  apply Nat.eq_of_testBit_eq
  intro i
  have hsub : 2 ^ n - 1 - m % 2 ^ n = 2 ^ n - (m % 2 ^ n + 1) := by omega
  rw [Nat.testBit_ldiff, Nat.testBit_two_pow_sub_one, hsub,
    Nat.testBit_two_pow_sub_succ hm]
  have : Nat.testBit (m % 2 ^ n) i = (decide (i < n) && Nat.testBit m i) := by
    simp [Nat.testBit_mod_two_pow]
  rw [this]
  cases decide (i < n) <;> simp

/-- Python `x & (2^n - 1)` on a possibly negative int equals the
mathematical (always nonnegative) remainder `x % 2^n`. -/
theorem int_land_two_pow_sub_one (x : ℤ) (n : ℕ) :
    Int.land x (2 ^ n - 1) = x % 2 ^ n := by
  have h1 : (1 : ℕ) ≤ 2 ^ n := Nat.two_pow_pos n
  have hlit : ((2 ^ n - 1 : ℕ) : ℤ) = (2 ^ n - 1 : ℤ) := by
    rw [Nat.cast_sub h1]
    push_cast
    ring
  cases x with
  | ofNat m =>
    rw [Int.ofNat_eq_natCast, ← hlit, int_land_natCast,
      Nat.and_pow_two_sub_one_eq_mod, Int.natCast_mod]
    push_cast
    ring
  | negSucc m =>
    have hcase : Int.land (Int.negSucc m) ((2 ^ n - 1 : ℕ) : ℤ) =
        ((Nat.ldiff (2 ^ n - 1) m : ℕ) : ℤ) := rfl
    rw [← hlit, hcase, ldiff_two_pow_sub_one, Int.negSucc_eq]
    have hm : m % 2 ^ n < 2 ^ n := Nat.mod_lt _ (Nat.two_pow_pos n)
    have hle : m % 2 ^ n ≤ 2 ^ n - 1 := by omega
    have hcast : ((2 ^ n - 1 - m % 2 ^ n : ℕ) : ℤ) =
        2 ^ n - 1 - ((m % 2 ^ n : ℕ) : ℤ) := by
      rw [Nat.cast_sub hle, Nat.cast_sub h1]
      push_cast
      ring
    have hdm : 2 ^ n * (m / 2 ^ n) + m % 2 ^ n = m := Nat.div_add_mod m (2 ^ n)
    have hdmz : (2 : ℤ) ^ n * ((m / 2 ^ n : ℕ) : ℤ) + ((m % 2 ^ n : ℕ) : ℤ) = (m : ℤ) := by
      exact_mod_cast congrArg (fun z : ℕ => (z : ℤ)) hdm
    have key : -((m : ℤ) + 1) =
        ((2 ^ n - 1 - m % 2 ^ n : ℕ) : ℤ) + 2 ^ n * (-((m / 2 ^ n : ℕ) : ℤ) - 1) := by
      rw [hcast]
      linarith
    rw [key, Int.add_mul_emod_self_left]
    refine (Int.emod_eq_of_lt (Int.natCast_nonneg _) ?_).symm
    have : (2 ^ n - 1 - m % 2 ^ n : ℕ) < 2 ^ n := by omega
    exact_mod_cast this

/-! ### Undervolt encoding -/

/-- The `VOLTAGE_PLANES` dictionary (lines 26-32). -/
def VOLTAGE_PLANES : List (String × ℕ) :=
  [("CORE", 0), ("GPU", 1), ("CACHE", 2), ("UNCORE", 3), ("ANALOGIO", 4)]

/-- Model of `calc_undervolt_msr` (lines 121-126): the fixed write header,
the plane index shifted to bit 40, and the rounded offset packed as a 12-bit
two's-complement field masked to bits 21-31.  The two `assert` statements
are modelled as `none`. -/
def calc_undervolt_msr (plane : String) (offset : ℚ) : Option ℤ :=
  if offset ≤ 0 then
    match VOLTAGE_PLANES.lookup plane with
    | some idx =>
      some (Int.lor
        (Int.lor 0x8000001100000000 ((idx : ℤ) <<< (40 : ℤ)))
        (Int.land 0xFFE00000 ((Int.land (pyRound (offset * 1.024)) 0xFFF) <<< (21 : ℤ))))
    | none => none
  else none

/-- The masked offset field of `calc_undervolt_msr`, as arithmetic: the
rounded offset taken mod `2^12`, with its top bit dropped by the
`0xFFE00000` mask, shifted to bit 21. -/
def undervolt_field (offset : ℚ) : ℕ :=
  (pyRound (offset * 1.024) % 4096).toNat % 2 ^ 11 * 2 ^ 21

theorem undervolt_field_lt (offset : ℚ) : undervolt_field offset < 2 ^ 32 := by
  have h : (pyRound (offset * 1.024) % 4096).toNat % 2 ^ 11 < 2 ^ 11 :=
    Nat.mod_lt _ (by norm_num)
  calc undervolt_field offset < 2 ^ 11 * 2 ^ 21 :=
        (Nat.mul_lt_mul_right (by norm_num)).mpr h
    _ = 2 ^ 32 := by norm_num

theorem lor_header (idx f : ℕ) (hidx : idx < 8) (hf : f < 2 ^ 32) :
    (0x8000001100000000 ||| idx * 2 ^ 40) ||| f =
      0x8000001100000000 + idx * 2 ^ 40 + f := by
  have h1 : (0x8000001100000000 : ℕ) = 2 ^ 23 * 2 ^ 40 + (2 ^ 36 + 2 ^ 32) := by norm_num
  have h2 : (0x8000001100000000 : ℕ) ||| idx * 2 ^ 40 =
      (2 ^ 23 ||| idx) * 2 ^ 40 + (2 ^ 36 + 2 ^ 32) := by
    rw [h1]
    exact lor_add_high (2 ^ 23) idx 40 (by norm_num)
  have h3 : (2 ^ 23 : ℕ) ||| idx = 2 ^ 23 + idx := by
    have := lor_mul_pow_eq_add (s := idx) 1 23 (by omega)
    simpa using this
  have h4 : ((2 ^ 23 + idx) * 2 ^ 40 + (2 ^ 36 + 2 ^ 32) : ℕ) =
      ((2 ^ 23 + idx) * 2 ^ 8 + (2 ^ 4 + 2 ^ 0)) * 2 ^ 32 := by ring
  rw [h2, h3, h4, lor_mul_pow_eq_add _ 32 hf]
  ring

theorem calc_undervolt_msr_eq (plane : String) (idx : ℕ) (offset : ℚ)
    (hm : VOLTAGE_PLANES.lookup plane = some idx) (hidx : idx < 8)
    (ho : offset ≤ 0) :
    calc_undervolt_msr plane offset =
      some ((0x8000001100000000 + idx * 2 ^ 40 + undervolt_field offset : ℕ) : ℤ) := by
  simp only [calc_undervolt_msr, hm, if_pos ho]
  congr 1
  set r : ℤ := pyRound (offset * 1.024) with hr
  have hfff : Int.land r 0xFFF = r % 4096 := by
    have h := int_land_two_pow_sub_one r 12
    norm_num at h
    exact h
  have hnn : 0 ≤ r % 4096 := Int.emod_nonneg r (by norm_num)
  have htn : r % 4096 = (((r % 4096).toNat : ℕ) : ℤ) := (Int.toNat_of_nonneg hnn).symm
  have hsh : (((r % 4096).toNat : ℕ) : ℤ) <<< (21 : ℤ) =
      (((r % 4096).toNat <<< 21 : ℕ) : ℤ) := Int.shiftLeft_coe_nat _ 21
  have hland : Int.land 0xFFE00000 ((((r % 4096).toNat : ℕ) : ℤ) <<< (21 : ℤ)) =
      ((0xFFE00000 &&& (r % 4096).toNat <<< 21 : ℕ) : ℤ) := by
    rw [hsh]
    exact int_land_natCast 0xFFE00000 _
  have hmask : (0xFFE00000 : ℕ) &&& (r % 4096).toNat <<< 21 =
      (r % 4096).toNat % 2 ^ 11 * 2 ^ 21 := by
    have hlit : (0xFFE00000 : ℕ) = (2 ^ 11 - 1) <<< 21 := by
      rw [Nat.shiftLeft_eq]
      norm_num
    rw [hlit, ← shiftLeft_land_distrib, Nat.and_comm, Nat.and_pow_two_sub_one_eq_mod,
      Nat.shiftLeft_eq]
  have hpb : ((idx : ℤ)) <<< (40 : ℤ) = ((idx * 2 ^ 40 : ℕ) : ℤ) := by
    have h := Int.shiftLeft_coe_nat idx 40
    rw [Nat.shiftLeft_eq] at h
    exact h
  rw [hfff, htn, hland, hmask, hpb]
  have hH : (0x8000001100000000 : ℤ) = ((0x8000001100000000 : ℕ) : ℤ) := by norm_num
  have hflt : (r % 4096).toNat % 2 ^ 11 * 2 ^ 21 < 2 ^ 32 := by
    calc (r % 4096).toNat % 2 ^ 11 * 2 ^ 21 < 2 ^ 11 * 2 ^ 21 :=
          (Nat.mul_lt_mul_right (by norm_num)).mpr (Nat.mod_lt _ (by norm_num))
      _ = 2 ^ 32 := by norm_num
  rw [hH, int_lor_natCast, int_lor_natCast,
    lor_header idx ((r % 4096).toNat % 2 ^ 11 * 2 ^ 21) hidx hflt]
  rfl

theorem lookup_of_mem_planes {plane : String} {idx : ℕ}
    (h : (plane, idx) ∈ VOLTAGE_PLANES) :
    VOLTAGE_PLANES.lookup plane = some idx ∧ idx < 8 := by
  fin_cases h <;> exact ⟨rfl, by norm_num⟩

/-- C4: `calc_undervolt_msr` applied to plane CORE (index 0) and offset
−50 mV returns the header `0x8000001100000000` combined with plane bits
`0 <<< 40` and the 12-bit two's-complement encoding of
`round(−50 × 1.024) = −51` masked into bits 21-31, i.e. the literal value
`0x80000011F9A00000`. -/
theorem calc_undervolt_msr_core_neg50 :
    calc_undervolt_msr "CORE" (-50) = some 0x80000011F9A00000 := by
  have hr : pyRound ((-50 : ℚ) * 1.024) = -51 := by
    norm_num [pyRound, Int.fract]
    norm_num [Int.floor_eq_iff, round_eq]
  rw [calc_undervolt_msr_eq "CORE" 0 (-50) rfl (by norm_num) (by norm_num)]
  simp only [undervolt_field, hr]
  norm_num

/-- C10: for every plane of the five voltage planes and every offset ≤ 0,
the value of `calc_undervolt_msr` has bits 0-20 all zero and bit 32 set;
the rounded offset contributes only a field below `2^32` that is a multiple
of `2^21` (the `0xFFE00000` mask discards the 12th bit of the
two's-complement field, which coincides with the header's always-set
bit 32); offset 0 yields exactly the header plus the plane bits. -/
theorem calc_undervolt_msr_bits (plane : String) (idx : ℕ) (offset : ℚ)
    (hmem : (plane, idx) ∈ VOLTAGE_PLANES) (ho : offset ≤ 0) (v : ℤ)
    (hv : calc_undervolt_msr plane offset = some v) :
    v.toNat % 2 ^ 21 = 0 ∧ v.toNat.testBit 32 = true ∧
      undervolt_field offset < 2 ^ 32 ∧ undervolt_field offset % 2 ^ 21 = 0 ∧
      v = ((0x8000001100000000 + idx * 2 ^ 40 + undervolt_field offset : ℕ) : ℤ) ∧
      (offset = 0 → v = ((0x8000001100000000 + idx * 2 ^ 40 : ℕ) : ℤ)) := by
  obtain ⟨hlk, hidx⟩ := lookup_of_mem_planes hmem
  have he := calc_undervolt_msr_eq plane idx offset hlk hidx ho
  rw [he] at hv
  have hveq : v = ((0x8000001100000000 + idx * 2 ^ 40 + undervolt_field offset : ℕ) : ℤ) :=
    (Option.some.injEq _ _ ▸ hv :).symm
  have hflt := undervolt_field_lt offset
  have hfmod : undervolt_field offset % 2 ^ 21 = 0 := by
    simp only [undervolt_field]
    omega
  refine ⟨?_, ?_, hflt, hfmod, hveq, ?_⟩
  · rw [hveq, Int.toNat_natCast]
    omega
  · rw [hveq, Int.toNat_natCast, Nat.testBit_to_div_mod]
    simp only [decide_eq_true_eq]
    omega
  · intro h0
    subst h0
    rw [hveq]
    have : undervolt_field 0 = 0 := by
      norm_num [undervolt_field, pyRound, Int.fract, round_eq]
    rw [this, Nat.add_zero]

/-- Witness for `calc_undervolt_msr_bits` at plane GPU (index 1) and
offset −50 mV. -/
theorem calc_undervolt_msr_bits_witness :
    (((0x8000001100000000 + 1 * 2 ^ 40 + undervolt_field (-50) : ℕ) : ℤ)).toNat % 2 ^ 21 = 0 ∧
      (((0x8000001100000000 + 1 * 2 ^ 40 + undervolt_field (-50) : ℕ) : ℤ)).toNat.testBit 32 =
        true ∧
      undervolt_field (-50) < 2 ^ 32 ∧ undervolt_field (-50) % 2 ^ 21 = 0 ∧
      ((0x8000001100000000 + 1 * 2 ^ 40 + undervolt_field (-50) : ℕ) : ℤ) =
        ((0x8000001100000000 + 1 * 2 ^ 40 + undervolt_field (-50) : ℕ) : ℤ) ∧
      ((-50 : ℚ) = 0 →
        ((0x8000001100000000 + 1 * 2 ^ 40 + undervolt_field (-50) : ℕ) : ℤ) =
          ((0x8000001100000000 + 1 * 2 ^ 40 : ℕ) : ℤ)) :=
  calc_undervolt_msr_bits "GPU" 1 (-50) (by simp [VOLTAGE_PLANES]) (by norm_num) _
    (calc_undervolt_msr_eq "GPU" 1 (-50) rfl (by norm_num) (by norm_num))

theorem tw_search_one : calc_time_window_vars 1 10 = some (10, 0) := by
  norm_num [calc_time_window_vars, tw_pairs, tw_find, tw_value, time_unit,
    List.range_succ]

theorem tw_search_small : calc_time_window_vars (5/4096 : ℚ) 10 = some (0, 1) := by
  norm_num [calc_time_window_vars, tw_pairs, tw_find, tw_value, time_unit,
    List.range_succ]

/-- C1: whenever `calc_time_window_vars` returns a pair `(Y, Z)`, that pair
lies in the 32×4 space, the requested duration `t` is at most the
represented duration `2^Y * (1 + Z/4) * u` for `u = 1/2^k`, and the pair is
minimal: any other pair of the space satisfying the bound represents a
duration at least as large. -/
theorem calc_time_window_vars_correct (t : ℚ) (k : ℕ) (Y Z : ℕ)
    (h : calc_time_window_vars t k = some (Y, Z)) :
    Y ≤ 31 ∧ Z ≤ 3 ∧ t ≤ 2 ^ Y * (1 + (Z : ℚ) / 4) * time_unit k ∧
      ∀ Y' Z' : ℕ, Y' ≤ 31 → Z' ≤ 3 →
        t ≤ 2 ^ Y' * (1 + (Z' : ℚ) / 4) * time_unit k →
        2 ^ Y * (1 + (Z : ℚ) / 4) ≤ 2 ^ Y' * (1 + (Z' : ℚ) / 4) := by
  obtain ⟨hmem, hle⟩ := tw_find_spec h
  obtain ⟨hY, hZ⟩ := mem_tw_pairs.mp hmem
  refine ⟨by omega, by omega, hle, ?_⟩
  intro Y' Z' hY' hZ' hle'
  obtain ⟨l₁, l₂, hsplit, hfail⟩ := tw_find_split h
  have hsorted := tw_pairs_sorted
  rw [hsplit] at hsorted
  have hmem' : ((Y', Z') : ℕ × ℕ) ∈ l₁ ++ (Y, Z) :: l₂ := by
    rw [← hsplit]
    exact mem_tw_pairs.mpr ⟨by omega, by omega⟩
  have hcv : tw_cval (Y, Z) ≤ tw_cval (Y', Z') := by
    rcases List.mem_append.mp hmem' with h1 | h2
    · exact absurd hle' (hfail _ h1)
    · rcases List.mem_cons.mp h2 with h2 | h2
      · rw [h2]
      · have hp := (List.pairwise_append.mp hsorted).2.1
        have hlt := (List.pairwise_cons.mp hp).1 _ h2
        exact le_of_lt hlt
  have hq : (tw_cval (Y, Z) : ℚ) ≤ (tw_cval (Y', Z') : ℚ) := by exact_mod_cast hcv
  have e1 : (2 : ℚ) ^ Y * (1 + (Z : ℚ) / 4) = (tw_cval (Y, Z) : ℚ) / 4 := by
    simp only [tw_cval]
    push_cast
    ring
  have e2 : (2 : ℚ) ^ Y' * (1 + (Z' : ℚ) / 4) = (tw_cval (Y', Z') : ℚ) / 4 := by
    simp only [tw_cval]
    push_cast
    ring
  rw [e1, e2]
  linarith

/-- Witness for `calc_time_window_vars_correct` at t = 1 s and k = 10:
the search returns (Y, Z) = (10, 0). -/
theorem calc_time_window_vars_correct_witness :
    (10 : ℕ) ≤ 31 ∧ (0 : ℕ) ≤ 3 ∧
      (1 : ℚ) ≤ 2 ^ 10 * (1 + ((0 : ℕ) : ℚ) / 4) * time_unit 10 ∧
      ∀ Y' Z' : ℕ, Y' ≤ 31 → Z' ≤ 3 →
        (1 : ℚ) ≤ 2 ^ Y' * (1 + (Z' : ℚ) / 4) * time_unit 10 →
        2 ^ 10 * (1 + ((0 : ℕ) : ℚ) / 4) ≤ 2 ^ Y' * (1 + (Z' : ℚ) / 4) :=
  calc_time_window_vars_correct 1 10 10 0 tw_search_one

/-- C5: for every duration `t` such that no pair (Y, Z) of the 32×4 space
satisfies `t ≤ 2^Y * (1 + Z/4) * u`, `calc_time_window_vars` signals the
`ValueError` (modelled as `none`) instead of returning any pair. -/
theorem calc_time_window_vars_exhausted (t : ℚ) (k : ℕ)
    (h : ∀ Y Z : ℕ, Y ≤ 31 → Z ≤ 3 →
      ¬ t ≤ 2 ^ Y * (1 + (Z : ℚ) / 4) * time_unit k) :
    calc_time_window_vars t k = none := by
  apply tw_find_none
  intro q hq
  obtain ⟨Y, Z⟩ := q
  obtain ⟨hY, hZ⟩ := mem_tw_pairs.mp hq
  exact h Y Z (by omega) (by omega)

/-- Witness for `calc_time_window_vars_exhausted`: a duration of 2^32
seconds with time unit 1 is not representable. -/
theorem calc_time_window_vars_exhausted_witness :
    calc_time_window_vars 4294967296 0 = none :=
  calc_time_window_vars_exhausted 4294967296 0 (by
    intro Y Z hY hZ hle
    have hpow : (2 : ℚ) ^ Y ≤ 2 ^ 31 := pow_le_pow_right₀ (by norm_num) hY
    have hz : ((Z : ℚ)) ≤ 3 := by exact_mod_cast hZ
    have hz0 : (0 : ℚ) ≤ (Z : ℚ) := by positivity
    rw [time_unit] at hle
    norm_num at hle
    have hmul : (2 : ℚ) ^ Y * (1 + (Z : ℚ) / 4) ≤ 2 ^ 31 * (7 / 4) := by
      apply mul_le_mul hpow (by linarith) (by positivity) (by positivity)
    norm_num at hmul
    linarith)

/-! ### MSR bit-field extraction (`readmsr`) -/

/-- Bit-range mask of `readmsr` (line 82):
`mask = sum(2**x for x in range(from_bit, to_bit + 1))`. -/
def readmsr_mask (from_bit to_bit : ℕ) : ℕ :=
  ((List.range' from_bit (to_bit + 1 - from_bit)).map fun x => 2 ^ x).sum

/-- Bit-range extraction of `readmsr` (line 83): `(val & mask) >> from_bit`. -/
def readmsr_field (val from_bit to_bit : ℕ) : ℕ :=
  (val &&& readmsr_mask from_bit to_bit) >>> from_bit

theorem sum_range'_two_pow (f n : ℕ) :
    (((List.range' f n).map fun x => 2 ^ x).sum) = (2 ^ n - 1) * 2 ^ f := by
  induction n generalizing f with
  | zero => simp
  | succ n ih =>
    rw [List.range'_succ]
    simp only [List.map_cons, List.sum_cons, ih (f + 1)]
    obtain ⟨A, hA⟩ : ∃ A, 2 ^ n = A + 1 := ⟨2 ^ n - 1, by have := Nat.two_pow_pos n; omega⟩
    rw [pow_succ 2 n, pow_succ 2 f, hA, Nat.add_sub_cancel]
    have h2 : (A + 1) * 2 - 1 = 2 * A + 1 := by omega
    rw [h2]
    ring

theorem readmsr_mask_eq (f t : ℕ) :
    readmsr_mask f t = (2 ^ (t + 1 - f) - 1) <<< f := by
  rw [readmsr_mask, sum_range'_two_pow, Nat.shiftLeft_eq]

theorem land_shiftLeft_shiftRight (v m f : ℕ) :
    (v &&& m <<< f) >>> f = (v >>> f) &&& m := by
  apply Nat.eq_of_testBit_eq
  intro i
  simp only [Nat.testBit_shiftRight, Nat.testBit_and, Nat.testBit_shiftLeft]
  have h1 : decide (f ≤ f + i) = true := decide_eq_true (Nat.le_add_right f i)
  rw [h1, Nat.add_sub_cancel_left]
  simp

/-- The `readmsr` bit-range extraction is division and remainder. -/
theorem readmsr_field_eq (v f t : ℕ) :
    readmsr_field v f t = v / 2 ^ f % 2 ^ (t + 1 - f) := by
  rw [readmsr_field, readmsr_mask_eq, land_shiftLeft_shiftRight,
    Nat.and_pow_two_sub_one_eq_mod, Nat.shiftRight_eq_div_pow]

/-! ### Package power limit (`calc_reg_values`, lines 177-188) -/

/-- Hardware power unit `1.0 / 2**readmsr(0x606, 0, 3)` (line 178). -/
def power_unit (kp : ℕ) : ℚ := 1 / 2 ^ kp

/-- Quantised power limit `int(round(tdp / power_unit))` (lines 179, 183). -/
def PL_val (w : ℚ) (kp : ℕ) : ℤ := pyRound (w / power_unit kp)

/-- Time-window code `Y | (Z << 5)` (lines 181, 185). -/
def TW_code (p : ℕ × ℕ) : ℕ := p.1 ||| p.2 <<< 5

/-- The packed register value of line 187:
`PL1 | (1 << 15) | (TW1 << 17) | (PL2 << 32) | (1 << 47) | (TW2 << 49)`. -/
def MSR_PKG_POWER_LIMIT (PL1 PL2 : ℤ) (TW1 TW2 : ℕ) : ℤ :=
  Int.lor (Int.lor (Int.lor (Int.lor (Int.lor PL1 ((1 : ℤ) <<< (15 : ℤ)))
    ((TW1 : ℤ) <<< (17 : ℤ))) (PL2 <<< (32 : ℤ))) ((1 : ℤ) <<< (47 : ℤ)))
    ((TW2 : ℤ) <<< (49 : ℤ))

/-- The package-power-limit part of `calc_reg_values` (lines 177-188) for one
power source, parametrised by the capability-register fields the source
reads: the time-unit exponent `kt` and the power-unit exponent `kp`.  A
`ValueError` escaping from `calc_time_window_vars` is modelled as `none`. -/
def calc_pkg_power_limit (w1 d1 w2 d2 : ℚ) (kt kp : ℕ) : Option ℤ :=
  match calc_time_window_vars d1 kt, calc_time_window_vars d2 kt with
  | some p1, some p2 =>
      some (MSR_PKG_POWER_LIMIT (PL_val w1 kp) (PL_val w2 kp) (TW_code p1) (TW_code p2))
  | _, _ => none

theorem calc_pkg_power_limit_eq (w1 d1 w2 d2 : ℚ) (kt kp : ℕ) (p1 p2 : ℕ × ℕ)
    (h1 : calc_time_window_vars d1 kt = some p1)
    (h2 : calc_time_window_vars d2 kt = some p2) :
    calc_pkg_power_limit w1 d1 w2 d2 kt kp =
      some (MSR_PKG_POWER_LIMIT (PL_val w1 kp) (PL_val w2 kp)
        (TW_code p1) (TW_code p2)) := by
  unfold calc_pkg_power_limit
  rw [h1, h2]

theorem TW_code_eq (Y Z : ℕ) (hY : Y < 32) : TW_code (Y, Z) = Z * 2 ^ 5 + Y := by
  rw [TW_code]
  simp only [Nat.shiftLeft_eq]
  exact lor_low_high Z 5 (by omega)

theorem PL_val_one : PL_val 1 3 = ((8 : ℕ) : ℤ) := by
  norm_num [PL_val, power_unit, pyRound, Int.fract, round_eq]

theorem MSR_PKG_POWER_LIMIT_natCast (a b t1 t2 : ℕ) :
    MSR_PKG_POWER_LIMIT (a : ℤ) (b : ℤ) t1 t2 =
      ((((((a ||| 1 <<< 15) ||| t1 <<< 17) ||| b <<< 32) ||| 1 <<< 47) |||
        t2 <<< 49 : ℕ) : ℤ) := by
  rw [MSR_PKG_POWER_LIMIT]
  have e15 : ((1 : ℤ) <<< (15 : ℤ)) = ((1 <<< 15 : ℕ) : ℤ) := Int.shiftLeft_coe_nat 1 15
  have e17 : ((t1 : ℤ) <<< (17 : ℤ)) = ((t1 <<< 17 : ℕ) : ℤ) := Int.shiftLeft_coe_nat t1 17
  have e32 : ((b : ℤ) <<< (32 : ℤ)) = ((b <<< 32 : ℕ) : ℤ) := Int.shiftLeft_coe_nat b 32
  have e47 : ((1 : ℤ) <<< (47 : ℤ)) = ((1 <<< 47 : ℕ) : ℤ) := Int.shiftLeft_coe_nat 1 47
  have e49 : ((t2 : ℤ) <<< (49 : ℤ)) = ((t2 <<< 49 : ℕ) : ℤ) := Int.shiftLeft_coe_nat t2 49
  rw [e15, e17, e32, e47, e49, int_lor_natCast, int_lor_natCast, int_lor_natCast,
    int_lor_natCast, int_lor_natCast]

theorem pkg_nat_eq_sum (a b t1 t2 : ℕ)
    (ha : a < 2 ^ 15) (hb : b < 2 ^ 15) (ht1 : t1 < 2 ^ 7) (_ht2 : t2 < 2 ^ 7) :
    ((((a ||| 1 <<< 15) ||| t1 <<< 17) ||| b <<< 32) ||| 1 <<< 47) ||| t2 <<< 49 =
      t2 * 2 ^ 49 + 2 ^ 47 + b * 2 ^ 32 + t1 * 2 ^ 17 + 2 ^ 15 + a := by
  simp only [Nat.shiftLeft_eq]
  rw [lor_low_high 1 15 ha]
  rw [lor_low_high t1 17 (by omega)]
  rw [lor_low_high b 32 (by omega)]
  rw [lor_low_high 1 47 (by omega)]
  rw [lor_low_high t2 49 (by omega)]
  ring

theorem pyRound_nonneg {q : ℚ} (h : 0 ≤ q) : 0 ≤ pyRound q := by
  unfold pyRound
  have h0 : 0 ≤ ⌊q⌋ := Int.floor_nonneg.mpr h
  by_cases hf : Int.fract q = 1 / 2
  · rw [if_pos hf]
    by_cases he : ⌊q⌋ % 2 = 0
    · rw [if_pos he]; exact h0
    · rw [if_neg he]; omega
  · rw [if_neg hf, round_eq]
    exact Int.floor_nonneg.mpr (by linarith)

theorem calc_pkg_power_limit_some_elim {w1 d1 w2 d2 : ℚ} {kt kp : ℕ} {v : ℤ}
    (hv : calc_pkg_power_limit w1 d1 w2 d2 kt kp = some v) :
    ∃ p1 p2, calc_time_window_vars d1 kt = some p1 ∧
      calc_time_window_vars d2 kt = some p2 ∧
      v = MSR_PKG_POWER_LIMIT (PL_val w1 kp) (PL_val w2 kp)
        (TW_code p1) (TW_code p2) := by
  cases hq1 : calc_time_window_vars d1 kt with
  | none =>
    unfold calc_pkg_power_limit at hv
    rw [hq1] at hv
    simp at hv
  | some p1 =>
    cases hq2 : calc_time_window_vars d2 kt with
    | none =>
      unfold calc_pkg_power_limit at hv
      rw [hq1, hq2] at hv
      simp at hv
    | some p2 =>
      rw [calc_pkg_power_limit_eq w1 d1 w2 d2 kt kp p1 p2 hq1 hq2] at hv
      exact ⟨p1, p2, rfl, rfl, (Option.some.inj hv).symm⟩

/-- C9: for every configuration for which the register computation succeeds
(wattages at or above the 0.1 W clamp of `load_config`), the computed
`MSR_PKG_POWER_LIMIT` value has bit 15 (PL1 enable) and bit 47 (PL2 enable)
set: the enable bits are unconditionally OR'd in. -/
theorem calc_pkg_power_limit_enable_bits (w1 d1 w2 d2 : ℚ) (kt kp : ℕ) (v : ℤ)
    (hw1 : 1 / 10 ≤ w1) (hw2 : 1 / 10 ≤ w2)
    (hv : calc_pkg_power_limit w1 d1 w2 d2 kt kp = some v) :
    v.toNat.testBit 15 = true ∧ v.toNat.testBit 47 = true := by
  obtain ⟨p1, p2, hq1, hq2, hveq⟩ := calc_pkg_power_limit_some_elim hv
  have hu : (0 : ℚ) < power_unit kp := by
    rw [power_unit]
    positivity
  have ha0 : 0 ≤ PL_val w1 kp := pyRound_nonneg (div_nonneg (by linarith) (le_of_lt hu))
  have hb0 : 0 ≤ PL_val w2 kp := pyRound_nonneg (div_nonneg (by linarith) (le_of_lt hu))
  rw [hveq, ← Int.toNat_of_nonneg ha0, ← Int.toNat_of_nonneg hb0,
    MSR_PKG_POWER_LIMIT_natCast, Int.toNat_natCast]
  have e15 : (1 <<< 15 : ℕ).testBit 15 = true := by
    rw [Nat.shiftLeft_eq, one_mul]
    exact Nat.testBit_two_pow_self
  have e47 : (1 <<< 47 : ℕ).testBit 47 = true := by
    rw [Nat.shiftLeft_eq, one_mul]
    exact Nat.testBit_two_pow_self
  constructor
  · simp only [Nat.testBit_or, e15]
    simp
  · simp only [Nat.testBit_or, e47]
    simp


/-- Witness for `calc_pkg_power_limit_enable_bits` at 1 W limits, 1 s
windows, time-unit exponent 10 and power-unit exponent 3. -/
theorem calc_pkg_power_limit_enable_bits_witness :
    (MSR_PKG_POWER_LIMIT (PL_val 1 3) (PL_val 1 3)
      (TW_code (10, 0)) (TW_code (10, 0))).toNat.testBit 15 = true ∧
    (MSR_PKG_POWER_LIMIT (PL_val 1 3) (PL_val 1 3)
      (TW_code (10, 0)) (TW_code (10, 0))).toNat.testBit 47 = true :=
  calc_pkg_power_limit_enable_bits 1 1 1 1 10 3 _ (by norm_num) (by norm_num)
    (calc_pkg_power_limit_eq 1 1 1 1 10 3 (10, 0) (10, 0) tw_search_one tw_search_one)

/-- Claimed bit layout of the specification: quantized PL1 in bits 0-14,
PL1 enable at bit 15, PL1 time-window code in bits 17-21, quantized PL2 in
bits 32-46, PL2 enable at bit 47, PL2 time-window code in bits 49-53, each
field confined to its listed range (an overflowing field would fail its
extraction equation).  Stated from the specification for comparison with
the computed register value. -/
def spec_pkg_layout (n pl1 pl2 tw1 tw2 : ℕ) : Prop :=
  readmsr_field n 0 14 = pl1 ∧ n.testBit 15 = true ∧
    readmsr_field n 17 21 = tw1 ∧
    readmsr_field n 32 46 = pl2 ∧ n.testBit 47 = true ∧
    readmsr_field n 49 53 = tw2

/-- C2 is refuted at a concrete input: with power-unit exponent 3
(unit 0.125 W), time-unit exponent 10, PL1 wattage 10000 W and PL1 duration
5/4096 s, the quantized PL1 value 80000 does not fit bits 0-14 and the PL1
time-window code 32 = `0 | (1 << 5)` does not fit bits 17-21, so the
claimed layout fails on the computed register value. -/
theorem spec_pkg_layout_counterexample :
    calc_pkg_power_limit 10000 (5/4096) 1 1 10 3 = some 5770271386613888 ∧
      PL_val 10000 3 = ((80000 : ℕ) : ℤ) ∧ PL_val 1 3 = ((8 : ℕ) : ℤ) ∧
      calc_time_window_vars (5/4096 : ℚ) 10 = some (0, 1) ∧
      calc_time_window_vars (1 : ℚ) 10 = some (10, 0) ∧ TW_code (0, 1) = 32 ∧
      ¬ spec_pkg_layout 5770271386613888 80000 8 (TW_code (0, 1))
          (TW_code (10, 0)) := by
  have htw1 : calc_time_window_vars (5/4096 : ℚ) 10 = some (0, 1) := tw_search_small
  have htw2 : calc_time_window_vars (1 : ℚ) 10 = some (10, 0) := tw_search_one
  have hPL1 : PL_val 10000 3 = ((80000 : ℕ) : ℤ) := by
    norm_num [PL_val, power_unit, pyRound, Int.fract, round_eq]
  have hPL2 : PL_val 1 3 = ((8 : ℕ) : ℤ) := PL_val_one
  have hTW1 : TW_code (0, 1) = 32 := by
    rw [TW_code_eq 0 1 (by norm_num)]
    norm_num
  have hTW2 : TW_code (10, 0) = 10 := by
    rw [TW_code_eq 10 0 (by norm_num)]
    norm_num
  have h21 : ((2 : ℕ) ||| 1) = 3 := by
    have h := lor_mul_pow_eq_add (s := 1) 1 1 (by norm_num)
    norm_num at h
    exact h
  refine ⟨?_, hPL1, hPL2, htw1, htw2, hTW1, ?_⟩
  · rw [calc_pkg_power_limit_eq 10000 (5/4096) 1 1 10 3 (0, 1) (10, 0) htw1 htw2,
      hPL1, hPL2, MSR_PKG_POWER_LIMIT_natCast]
    have hnat : ((((80000 ||| 1 <<< 15) ||| TW_code (0, 1) <<< 17) ||| 8 <<< 32) |||
        1 <<< 47) ||| TW_code (10, 0) <<< 49 = 5770271386613888 := by
      rw [hTW1, hTW2]
      simp only [Nat.shiftLeft_eq]
      rw [show (80000 : ℕ) = 2 * 2 ^ 15 + 14464 by norm_num,
        lor_add_high 2 1 15 (by norm_num), h21,
        lor_low_high 32 17 (by norm_num),
        lor_low_high 8 32 (by norm_num),
        lor_low_high 1 47 (by norm_num),
        lor_low_high 10 49 (by norm_num)]
      norm_num
    rw [hnat]
    norm_num
  · intro hspec
    have h3 := hspec.2.2.1
    rw [hTW1, readmsr_field_eq] at h3
    norm_num at h3

/-- C2 (amended): for every configuration whose quantized PL1 and PL2
values fit 15 bits, the computed `MSR_PKG_POWER_LIMIT` value places the
quantized PL1 in bits 0-14, the PL1 enable bit at 15, the 7-bit PL1
time-window code `Y | (Z << 5)` in bits 17-23, the quantized PL2 in bits
32-46, the PL2 enable bit at 47 and the 7-bit PL2 time-window code in bits
49-55, with each field confined to its range and the gap bits 16, 24-31,
48 and everything from bit 56 up zero. -/
theorem calc_pkg_power_limit_fields (w1 d1 w2 d2 : ℚ) (kt kp : ℕ)
    (Y1 Z1 Y2 Z2 : ℕ)
    (hq1 : calc_time_window_vars d1 kt = some (Y1, Z1))
    (hq2 : calc_time_window_vars d2 kt = some (Y2, Z2))
    (ha0 : 0 ≤ PL_val w1 kp) (ha : PL_val w1 kp < 2 ^ 15)
    (hb0 : 0 ≤ PL_val w2 kp) (hb : PL_val w2 kp < 2 ^ 15)
    (v : ℤ) (hv : calc_pkg_power_limit w1 d1 w2 d2 kt kp = some v) :
    readmsr_field v.toNat 0 14 = (PL_val w1 kp).toNat ∧
      v.toNat.testBit 15 = true ∧
      readmsr_field v.toNat 17 23 = TW_code (Y1, Z1) ∧ TW_code (Y1, Z1) < 2 ^ 7 ∧
      readmsr_field v.toNat 32 46 = (PL_val w2 kp).toNat ∧
      v.toNat.testBit 47 = true ∧
      readmsr_field v.toNat 49 55 = TW_code (Y2, Z2) ∧ TW_code (Y2, Z2) < 2 ^ 7 ∧
      v.toNat.testBit 16 = false ∧ v.toNat.testBit 48 = false ∧
      readmsr_field v.toNat 24 31 = 0 ∧ v.toNat < 2 ^ 56 := by
  obtain ⟨p1, p2, hq1', hq2', hveq⟩ := calc_pkg_power_limit_some_elim hv
  have hp1 : p1 = (Y1, Z1) := Option.some.inj (hq1' ▸ hq1)
  have hp2 : p2 = (Y2, Z2) := Option.some.inj (hq2' ▸ hq2)
  subst hp1
  subst hp2
  obtain ⟨hmem1, -⟩ := tw_find_spec hq1
  obtain ⟨hmem2, -⟩ := tw_find_spec hq2
  obtain ⟨hY1, hZ1⟩ := mem_tw_pairs.mp hmem1
  obtain ⟨hY2, hZ2⟩ := mem_tw_pairs.mp hmem2
  have ht1 : TW_code (Y1, Z1) = Z1 * 2 ^ 5 + Y1 := TW_code_eq Y1 Z1 hY1
  have ht2 : TW_code (Y2, Z2) = Z2 * 2 ^ 5 + Y2 := TW_code_eq Y2 Z2 hY2
  have ht1b : TW_code (Y1, Z1) < 2 ^ 7 := by rw [ht1]; omega
  have ht2b : TW_code (Y2, Z2) < 2 ^ 7 := by rw [ht2]; omega
  have haN : (PL_val w1 kp).toNat < 2 ^ 15 := by omega
  have hbN : (PL_val w2 kp).toNat < 2 ^ 15 := by omega
  have hsum : v.toNat = TW_code (Y2, Z2) * 2 ^ 49 + 2 ^ 47 +
      (PL_val w2 kp).toNat * 2 ^ 32 + TW_code (Y1, Z1) * 2 ^ 17 + 2 ^ 15 +
      (PL_val w1 kp).toNat := by
    rw [hveq, ← Int.toNat_of_nonneg ha0, ← Int.toNat_of_nonneg hb0,
      MSR_PKG_POWER_LIMIT_natCast, Int.toNat_natCast,
      pkg_nat_eq_sum _ _ _ _ haN hbN ht1b ht2b]
    simp only [Int.toNat_natCast]
  refine ⟨?_, ?_, ?_, ht1b, ?_, ?_, ?_, ht2b, ?_, ?_, ?_, ?_⟩
  · rw [readmsr_field_eq, hsum]
    omega
  · rw [hsum, Nat.testBit_to_div_mod]
    simp only [decide_eq_true_eq]
    omega
  · rw [readmsr_field_eq, hsum]
    omega
  · rw [readmsr_field_eq, hsum]
    omega
  · rw [hsum, Nat.testBit_to_div_mod]
    simp only [decide_eq_true_eq]
    omega
  · rw [readmsr_field_eq, hsum]
    omega
  · rw [hsum, Nat.testBit_to_div_mod]
    simp only [decide_eq_false_iff_not]
    omega
  · rw [hsum, Nat.testBit_to_div_mod]
    simp only [decide_eq_false_iff_not]
    omega
  · rw [readmsr_field_eq, hsum]
    omega
  · rw [hsum]
    omega

/-- Witness for `calc_pkg_power_limit_fields` at 1 W limits, 1 s windows,
time-unit exponent 10 and power-unit exponent 3. -/
theorem calc_pkg_power_limit_fields_witness :
    readmsr_field (MSR_PKG_POWER_LIMIT (PL_val 1 3) (PL_val 1 3)
        (TW_code (10, 0)) (TW_code (10, 0))).toNat 0 14 = (PL_val 1 3).toNat ∧
      (MSR_PKG_POWER_LIMIT (PL_val 1 3) (PL_val 1 3) (TW_code (10, 0))
        (TW_code (10, 0))).toNat.testBit 15 = true ∧
      readmsr_field (MSR_PKG_POWER_LIMIT (PL_val 1 3) (PL_val 1 3)
        (TW_code (10, 0)) (TW_code (10, 0))).toNat 17 23 = TW_code (10, 0) ∧
      TW_code (10, 0) < 2 ^ 7 ∧
      readmsr_field (MSR_PKG_POWER_LIMIT (PL_val 1 3) (PL_val 1 3)
        (TW_code (10, 0)) (TW_code (10, 0))).toNat 32 46 = (PL_val 1 3).toNat ∧
      (MSR_PKG_POWER_LIMIT (PL_val 1 3) (PL_val 1 3) (TW_code (10, 0))
        (TW_code (10, 0))).toNat.testBit 47 = true ∧
      readmsr_field (MSR_PKG_POWER_LIMIT (PL_val 1 3) (PL_val 1 3)
        (TW_code (10, 0)) (TW_code (10, 0))).toNat 49 55 = TW_code (10, 0) ∧
      TW_code (10, 0) < 2 ^ 7 ∧
      (MSR_PKG_POWER_LIMIT (PL_val 1 3) (PL_val 1 3) (TW_code (10, 0))
        (TW_code (10, 0))).toNat.testBit 16 = false ∧
      (MSR_PKG_POWER_LIMIT (PL_val 1 3) (PL_val 1 3) (TW_code (10, 0))
        (TW_code (10, 0))).toNat.testBit 48 = false ∧
      readmsr_field (MSR_PKG_POWER_LIMIT (PL_val 1 3) (PL_val 1 3)
        (TW_code (10, 0)) (TW_code (10, 0))).toNat 24 31 = 0 ∧
      (MSR_PKG_POWER_LIMIT (PL_val 1 3) (PL_val 1 3) (TW_code (10, 0))
        (TW_code (10, 0))).toNat < 2 ^ 56 :=
  calc_pkg_power_limit_fields 1 1 1 1 10 3 10 0 10 0 tw_search_one tw_search_one
    (by rw [PL_val_one]; norm_num) (by rw [PL_val_one]; norm_num)
    (by rw [PL_val_one]; norm_num) (by rw [PL_val_one]; norm_num)
    _
    (calc_pkg_power_limit_eq 1 1 1 1 10 3 (10, 0) (10, 0) tw_search_one tw_search_one)

/-! ### Trip temperature (`load_config` lines 144-149, `calc_reg_values`
lines 165-175) -/

/-- The initial `TRIP_TEMP_RANGE` (line 34). -/
def TRIP_TEMP_RANGE : ℚ × ℚ := (40, 97)

/-- The trip-temperature clamp of `load_config` (line 145):
`min(TRIP_TEMP_RANGE[1], max(TRIP_TEMP_RANGE[0], trip_temp))`, performed
while `TRIP_TEMP_RANGE` still holds its initial value `[40, 97]` —
`calc_reg_values` narrows the range only after `load_config` has returned. -/
def load_config_trip (t : ℚ) : ℚ := min TRIP_TEMP_RANGE.2 (max TRIP_TEMP_RANGE.1 t)

/-- The narrowed upper bound `min(TRIP_TEMP_RANGE[1], critical_temp - 3)`
that `calc_reg_values` stores back into `TRIP_TEMP_RANGE` (line 172). -/
def adjusted_trip_upper (critical_temp : ℕ) : ℚ :=
  min TRIP_TEMP_RANGE.2 ((critical_temp : ℚ) - 3)

/-- The register value `trip_offset << 24` with
`trip_offset = int(round(critical_temp - trip))` (lines 174-175). -/
def MSR_TEMPERATURE_TARGET (critical_temp : ℕ) (trip : ℚ) : ℤ :=
  pyRound ((critical_temp : ℚ) - trip) <<< (24 : ℤ)

/-- C3 fails on the code: with a critical temperature of 90 °C read from
the capability register and a configured trip temperature of 95 °C, the
`load_config` clamp (which runs before `calc_reg_values` narrows
`TRIP_TEMP_RANGE`) keeps 95 °C.  That exceeds the adjusted valid upper
bound `min(97, 90 − 3) = 87`, and the temperature-target register is then
computed from the stale value, packing the negative offset −5. -/
theorem trip_temp_escapes_adjusted_range :
    load_config_trip 95 = 95 ∧ adjusted_trip_upper 90 = 87 ∧
      ¬ load_config_trip 95 ≤ adjusted_trip_upper 90 ∧
      MSR_TEMPERATURE_TARGET 90 (load_config_trip 95) = -5 * 2 ^ 24 := by
  have h1 : load_config_trip 95 = 95 := by
    norm_num [load_config_trip, TRIP_TEMP_RANGE]
  have h2 : adjusted_trip_upper 90 = 87 := by
    norm_num [adjusted_trip_upper, TRIP_TEMP_RANGE]
  refine ⟨h1, h2, by rw [h1, h2]; norm_num, ?_⟩
  rw [MSR_TEMPERATURE_TARGET, h1]
  have hr : pyRound (((90 : ℕ) : ℚ) - 95) = -5 := by
    norm_num [pyRound, Int.fract, round_eq]
  rw [hr, show ((-5 : ℤ)) <<< (24 : ℤ) = -5 * 2 ^ 24 from int_shiftLeft_eq_mul (-5) 24]

/-! ### Power state and control loop (`power_thread` lines 220-252,
`handle_ac_callback` lines 299-304) -/

/-- Power sources. -/
inductive PowerSource
  | AC
  | BATTERY
  deriving DecidableEq

/-- Detection method of the power-source monitor: `'polling'` or `'dbus'`
(the event-driven mode). -/
inductive DetectMethod
  | polling
  | dbus
  deriving DecidableEq

/-- The global `power` dictionary (line 37): starts as
`{'source': None, 'method': 'polling'}`. -/
structure PowerState where
  source : Option PowerSource
  method : DetectMethod
  deriving DecidableEq

/-- Model of `handle_ac_callback` (lines 299-304).  A well-formed payload
carries the `Online` value; a payload from which extraction fails for any
reason is `none`.  The `try` block assigns the source first, then the
method; the failing lookup happens before either assignment, so the
`except` branch only resets the method. -/
def handle_ac_callback (payload : Option ℤ) (st : PowerState) : PowerState :=
  match payload with
  | some online =>
      { source := some (if online = 0 then PowerSource.BATTERY else PowerSource.AC),
        method := DetectMethod.dbus }
  | none => { st with method := DetectMethod.polling }

/-- C6: on a well-formed payload the handler sets the source from the
`Online` flag (0 maps to BATTERY, any other value to AC) and switches the
method to the event-driven (dbus) mode; on an extraction failure it falls
back to polling and leaves the source holding its prior value. -/
theorem handle_ac_callback_spec (online : ℤ) (st : PowerState) :
    (handle_ac_callback (some online) st).source =
        some (if online = 0 then PowerSource.BATTERY else PowerSource.AC) ∧
      (handle_ac_callback (some online) st).method = DetectMethod.dbus ∧
      (handle_ac_callback none st).method = DetectMethod.polling ∧
      (handle_ac_callback none st).source = st.source :=
  ⟨rfl, rfl, rfl, rfl⟩

/-- The update of `power['source']` at the top of a control-loop tick
(lines 221-223): only performed while polling; the tick never writes
`power['method']`. -/
def power_thread_tick (on_battery : Bool) (st : PowerState) : PowerState :=
  if st.method = DetectMethod.polling then
    { st with
      source := some (if on_battery then PowerSource.BATTERY else PowerSource.AC) }
  else st

/-- One step on the shared `power` state: a control-loop tick (with the
sampled battery flag) or a dbus notification. -/
inductive PowerEvent
  | tick (on_battery : Bool)
  | notify (payload : Option ℤ)
  deriving DecidableEq

/-- Effect of one event on the shared power state. -/
def power_step : PowerEvent → PowerState → PowerState
  | PowerEvent.tick b, st => power_thread_tick b st
  | PowerEvent.notify p, st => handle_ac_callback p st

/-- C7: in the step relation of control-loop ticks and notification
callbacks, the only step that leaves the event-driven state is a malformed
notification: a tick never writes the method, and a well-formed
notification sets it to event-driven again. -/
theorem event_driven_exit_only_malformed (e : PowerEvent) (st : PowerState)
    (hm : st.method = DetectMethod.dbus)
    (hleave : (power_step e st).method ≠ DetectMethod.dbus) :
    e = PowerEvent.notify none := by
  cases e with
  | tick b =>
    exfalso
    apply hleave
    simp [power_step, power_thread_tick, hm]
  | notify p =>
    cases p with
    | none => rfl
    | some n =>
      exfalso
      exact hleave rfl

/-- Witness for `event_driven_exit_only_malformed`: a malformed
notification arriving in the event-driven state on AC. -/
theorem event_driven_exit_only_malformed_witness :
    PowerEvent.notify none = PowerEvent.notify none :=
  event_driven_exit_only_malformed (PowerEvent.notify none)
    ⟨some PowerSource.AC, DetectMethod.dbus⟩ rfl (by decide)

/-! ### Hardware writes of one control-loop tick -/

/-- One hardware write of a control-loop tick: an MSR write (replicated to
all cores by `writemsr`) or one 32-bit half written to the memory-mapped
mirror. -/
inductive HWWrite
  | msr (address value : ℕ)
  | mmio32 (offset value : ℕ)
  deriving DecidableEq

/-- The per-power-source register set computed by `calc_reg_values`: the
temperature-target and cTDP entries are optional dictionary keys
(lines 175, 197), the package-power-limit entry is always present
(line 187). -/
structure RegSet where
  temperature_target : Option ℕ
  config_tdp_control : Option ℕ
  pkg_power_limit : ℕ
  deriving DecidableEq

/-- The writes of one non-debug control-loop tick (lines 225-252), in
program order: the optional temperature-target MSR write, the optional
cTDP MSR write, the package-power-limit MSR write, and the two 32-bit
halves `write_value & 0xffffffff` and `write_value >> 32` of the same
value to the memory-mapped register at offsets 0 and 4. -/
def tick_writes (regs : RegSet) : List HWWrite :=
  (match regs.temperature_target with
    | some w => [HWWrite.msr 0x1a2 w]
    | none => []) ++
  (match regs.config_tdp_control with
    | some w => [HWWrite.msr 0x64b w]
    | none => []) ++
  [HWWrite.msr 0x610 regs.pkg_power_limit,
    HWWrite.mmio32 0 (regs.pkg_power_limit &&& 0xffffffff),
    HWWrite.mmio32 4 (regs.pkg_power_limit >>> 32)]

/-- C8: a tick whose register set contains only the package-power-limit
entry performs exactly one MSR write, at `0x610` with that value, plus the
low 32 bits of the same value at offset 0 and the high 32 bits at offset 4
of the memory-mapped register, and no temperature-target or cTDP write. -/
theorem tick_writes_pkg_only (regs : RegSet)
    (h1 : regs.temperature_target = none) (h2 : regs.config_tdp_control = none) :
    tick_writes regs =
      [HWWrite.msr 0x610 regs.pkg_power_limit,
        HWWrite.mmio32 0 (regs.pkg_power_limit &&& 0xffffffff),
        HWWrite.mmio32 4 (regs.pkg_power_limit >>> 32)] := by
  unfold tick_writes
  rw [h1, h2]
  rfl

/-- Witness for `tick_writes_pkg_only` at the register set holding only a
package power limit of 5. -/
theorem tick_writes_pkg_only_witness :
    tick_writes ⟨none, none, 5⟩ =
      [HWWrite.msr 0x610 (5 : ℕ), HWWrite.mmio32 0 ((5 : ℕ) &&& 0xffffffff),
        HWWrite.mmio32 4 ((5 : ℕ) >>> 32)] :=
  tick_writes_pkg_only ⟨none, none, 5⟩ rfl rfl
